import Mathlib

/-!
# Verification of the dag-paths analysis engine

Shallow embedding of `src/dags/analysis/paths.py` (graph construction, simple-path
enumeration with temporal aggregation, path ranking, network metrics, and the
timing auditor) together with the temporal record type of `src/dags/utils/data.py`.

Modelling conventions:
* `datetime` values are embedded as `Nat`, order-isomorphically, with
  `datetime.min` mapped to `0` (the least element).  Optional dates are
  `Option Nat`; a Python `datetime` object is always truthy, so a Python
  truthiness test `if x.target_date:` is embedded as `Option.isSome`.
* The Python `dict` of temporal records is embedded as a function
  `String → Option NodeTemporalInfo`; in-place mutation of a record becomes a
  pointwise functional update.  `find_paths_with_dates`, which mutates the
  mapping, returns the updated mapping as a second component.
* `networkx.DiGraph` is embedded as insertion-ordered node and edge lists with
  an attribute map; `add_node` / `add_edge` reproduce networkx behaviour
  (idempotent inserts, implicit attribute-free node creation by edges).
* `datetime.now()` inside `analyze_path_timing` is passed in as an explicit
  `today` parameter.
-/

namespace DagPaths

/-- Embedded `datetime.min`: dates are order-embedded into `Nat` with the
minimum representable datetime sent to `0`. -/
def datetimeMin : Nat := 0

/-- Temporal record of a node (`NodeTemporalInfo` in `src/dags/utils/data.py`).
`in_degree` / `out_degree` start out as `None` and are written by
`find_paths_with_dates`. -/
structure NodeTemporalInfo where
  start_date : Option Nat
  target_date : Option Nat
  closed_date : Option Nat
  in_degree : Option Nat := none
  out_degree : Option Nat := none
  opportunity : Option String := none
deriving DecidableEq, Repr

/-- The temporal mapping `{node_id: NodeTemporalInfo}`. -/
def TMap : Type := String → Option NodeTemporalInfo

/-- Node attributes stored by the graph: the `type` and `state` attributes a
node may carry (`G.add_node(node, **info)`); a node created implicitly by
`add_edge` carries neither. -/
structure NodeAttrs where
  type : Option String := none
  state : Option String := none
deriving DecidableEq, Repr

/-- Embedded `networkx.DiGraph`: insertion-ordered node list, insertion-ordered
edge list (at most one copy of each directed edge), and per-node attributes. -/
structure DiGraph where
  nodes : List String
  edges : List (String × String)
  attrs : String → Option NodeAttrs

def DiGraph.empty : DiGraph := ⟨[], [], fun _ => none⟩

/-- `G.add_node(n, **info)` with `type`/`state` attributes: inserts the node if
absent and (re)writes its attributes. -/
def DiGraph.addNode (G : DiGraph) (n : String) (t s : String) : DiGraph :=
  { G with
    nodes := if n ∈ G.nodes then G.nodes else G.nodes ++ [n]
    attrs := fun m => if m = n then some ⟨some t, some s⟩ else G.attrs m }

/-- Implicit node creation performed by `G.add_edge`: a node not yet present is
added with an empty attribute dictionary. -/
def DiGraph.touch (G : DiGraph) (n : String) : DiGraph :=
  if n ∈ G.nodes then G
  else { G with nodes := G.nodes ++ [n], attrs := fun m => if m = n then some ⟨none, none⟩ else G.attrs m }

/-- `G.add_edge(u, v)`: creates missing endpoints, stores at most one copy of
the directed edge. -/
def DiGraph.addEdge (G : DiGraph) (u v : String) : DiGraph :=
  let G := (G.touch u).touch v
  if (u, v) ∈ G.edges then G else { G with edges := G.edges ++ [(u, v)] }

/-- One entry of the relation mapping consumed by `create_dag`:
`{type, state, predecessors: [ids], successors: [ids]}`. -/
structure NodeInput where
  type : String
  state : String
  predecessors : List String := []
  successors : List String := []
deriving DecidableEq, Repr

/-- Body of the `create_dag` loop for one `(node, info)` entry: add the node
with its attributes, then an edge `pred → node` for every listed predecessor
and an edge `node → succ` for every listed successor. -/
def dagStep (G : DiGraph) (ni : String × NodeInput) : DiGraph :=
  let G := G.addNode ni.1 ni.2.type ni.2.state
  let G := ni.2.predecessors.foldl (fun G p => G.addEdge p ni.1) G
  ni.2.successors.foldl (fun G s => G.addEdge ni.1 s) G

/-- `create_dag` (`src/dags/analysis/paths.py`). -/
def create_dag (data : List (String × NodeInput)) : DiGraph :=
  data.foldl dagStep DiGraph.empty

/-- `G.in_degree(n)`: number of stored edges entering `n`. -/
def DiGraph.inDegree (G : DiGraph) (n : String) : Nat :=
  (G.edges.filter (fun e => e.2 = n)).length

/-- `G.out_degree(n)`: number of stored edges leaving `n`. -/
def DiGraph.outDegree (G : DiGraph) (n : String) : Nat :=
  (G.edges.filter (fun e => e.1 = n)).length

/-- Membership of a directed edge. -/
def DiGraph.hasEdge (G : DiGraph) (u v : String) : Prop := (u, v) ∈ G.edges

instance (G : DiGraph) (u v : String) : Decidable (G.hasEdge u v) := by
  unfold DiGraph.hasEdge; infer_instance

/-- The successors of `u` read off the edge list. -/
def DiGraph.succList (G : DiGraph) (u : String) : List String :=
  (G.edges.filter (fun e => e.1 = u)).map Prod.snd

/-- A graph is well formed when every stored edge endpoint is a stored node.
`create_dag` only produces well-formed graphs. -/
def DiGraph.WellFormed (G : DiGraph) : Prop :=
  ∀ e ∈ G.edges, e.1 ∈ G.nodes ∧ e.2 ∈ G.nodes

instance (G : DiGraph) : Decidable G.WellFormed := by
  unfold DiGraph.WellFormed; infer_instance

lemma DiGraph.mem_succList {G : DiGraph} {u v : String} :
    v ∈ G.succList u ↔ (u, v) ∈ G.edges := by
  unfold DiGraph.succList
  simp only [List.mem_map, List.mem_filter, decide_eq_true_eq]
  constructor
  · rintro ⟨⟨a, b⟩, ⟨hmem, rfl⟩, rfl⟩; exact hmem
  · intro h; exact ⟨(u, v), ⟨h, rfl⟩, rfl⟩

/-- Python's `max(xs)` guarded by `if xs else None`. -/
def listMax (xs : List Nat) : Option Nat :=
  match xs with
  | [] => none
  | x :: rest => some (rest.foldl Nat.max x)

/-- Python's `min(xs)` guarded by `if xs else None`. -/
def listMin (xs : List Nat) : Option Nat :=
  match xs with
  | [] => none
  | x :: rest => some (rest.foldl Nat.min x)

lemma foldl_max_spec (xs : List Nat) (a : Nat) :
    a ≤ xs.foldl Nat.max a ∧ (∀ e ∈ xs, e ≤ xs.foldl Nat.max a) ∧
      (xs.foldl Nat.max a = a ∨ xs.foldl Nat.max a ∈ xs) := by
  induction xs generalizing a with
  | nil => simp
  | cons x rest ih =>
    obtain ⟨h1, h2, h3⟩ := ih (Nat.max a x)
    simp only [List.foldl_cons]
    refine ⟨le_trans (Nat.le_max_left a x) h1, ?_, ?_⟩
    · intro e he
      rcases List.mem_cons.mp he with rfl | he
      · exact le_trans (Nat.le_max_right a e) h1
      · exact h2 e he
    · rcases h3 with h | h
      · rcases Nat.le_total a x with hm | hm
        · right; rw [h]
          have hx : Nat.max a x = x := Nat.max_eq_right hm
          rw [hx]; exact List.mem_cons_self _ _
        · left; rw [h]; exact Nat.max_eq_left hm
      · right; exact List.mem_cons_of_mem _ h

lemma foldl_min_spec (xs : List Nat) (a : Nat) :
    xs.foldl Nat.min a ≤ a ∧ (∀ e ∈ xs, xs.foldl Nat.min a ≤ e) ∧
      (xs.foldl Nat.min a = a ∨ xs.foldl Nat.min a ∈ xs) := by
  induction xs generalizing a with
  | nil => simp
  | cons x rest ih =>
    obtain ⟨h1, h2, h3⟩ := ih (Nat.min a x)
    simp only [List.foldl_cons]
    refine ⟨le_trans h1 (Nat.min_le_left a x), ?_, ?_⟩
    · intro e he
      rcases List.mem_cons.mp he with rfl | he
      · exact le_trans h1 (Nat.min_le_right a e)
      · exact h2 e he
    · rcases h3 with h | h
      · rcases Nat.le_total a x with hm | hm
        · left; rw [h]; exact Nat.min_eq_left hm
        · right; rw [h]
          have hx : Nat.min a x = x := Nat.min_eq_right hm
          rw [hx]; exact List.mem_cons_self _ _
      · right; exact List.mem_cons_of_mem _ h

lemma listMax_eq_none_iff {xs : List Nat} : listMax xs = none ↔ xs = [] := by
  cases xs <;> simp [listMax]

lemma listMax_mem {xs : List Nat} {d : Nat} (h : listMax xs = some d) : d ∈ xs := by
  cases xs with
  | nil => simp [listMax] at h
  | cons x rest =>
    simp only [listMax, Option.some.injEq] at h
    rcases (foldl_max_spec rest x).2.2 with h' | h'
    · rw [← h, h']; exact List.mem_cons_self _ _
    · rw [← h]; exact List.mem_cons_of_mem _ h'

lemma listMax_is_ub {xs : List Nat} {d : Nat} (h : listMax xs = some d) :
    ∀ e ∈ xs, e ≤ d := by
  cases xs with
  | nil => simp [listMax] at h
  | cons x rest =>
    simp only [listMax, Option.some.injEq] at h
    intro e he
    rcases List.mem_cons.mp he with rfl | he
    · rw [← h]; exact (foldl_max_spec rest e).1
    · rw [← h]; exact (foldl_max_spec rest x).2.1 e he

lemma listMin_eq_none_iff {xs : List Nat} : listMin xs = none ↔ xs = [] := by
  cases xs <;> simp [listMin]

lemma listMin_mem {xs : List Nat} {d : Nat} (h : listMin xs = some d) : d ∈ xs := by
  cases xs with
  | nil => simp [listMin] at h
  | cons x rest =>
    simp only [listMin, Option.some.injEq] at h
    rcases (foldl_min_spec rest x).2.2 with h' | h'
    · rw [← h, h']; exact List.mem_cons_self _ _
    · rw [← h]; exact List.mem_cons_of_mem _ h'

lemma listMin_is_lb {xs : List Nat} {d : Nat} (h : listMin xs = some d) :
    ∀ e ∈ xs, d ≤ e := by
  cases xs with
  | nil => simp [listMin] at h
  | cons x rest =>
    simp only [listMin, Option.some.injEq] at h
    intro e he
    rcases List.mem_cons.mp he with rfl | he
    · rw [← h]; exact (foldl_min_spec rest e).1
    · rw [← h]; exact (foldl_min_spec rest x).2.1 e he

/-! ## Simple-path enumeration (`nx.all_simple_paths`) -/

/-- Depth-first enumeration of the simple paths from `u` to `t` avoiding
`visited`, with a fuel bound on the number of nodes of a path.  This embeds
`nx.all_simple_paths`: a path stops at its first (and only) arrival at `t`,
and no node is ever revisited. -/
def pathsAux (G : DiGraph) : Nat → String → String → List String → List (List String)
  | 0, _, _, _ => []
  | fuel + 1, u, t, visited =>
    if u = t then [[u]]
    else
      (G.succList u).flatMap (fun v =>
        if v ∈ u :: visited then []
        else (pathsAux G fuel v t (u :: visited)).map (u :: ·))

/-- `list(nx.all_simple_paths(G, s, t))`: a simple path has at most
`G.nodes.length` nodes, so that fuel is sufficient. -/
def allSimplePaths (G : DiGraph) (s t : String) : List (List String) :=
  pathsAux G G.nodes.length s t []

/-- The `all_paths` list accumulated by the pairwise loop of
`find_paths_with_dates`: all simple paths between every ordered pair of
distinct nodes, sources outermost. -/
def allPathsList (G : DiGraph) : List (List String) :=
  G.nodes.flatMap (fun s =>
    G.nodes.flatMap (fun t => if s = t then [] else allSimplePaths G s t))

/-! ## Temporal aggregation (`find_paths_with_dates`) -/

/-- `PathInfo` dataclass of `src/dags/analysis/paths.py`. -/
structure PathInfo where
  nodes : List String
  target_date : Option Nat
  start_date : Option Nat
  closed_date : Option Nat
deriving DecidableEq, Repr

/-- State of the per-path scan loop: the three collected date lists and the
(shared, mutated) temporal mapping. -/
structure ScanAcc where
  target_dates : List Nat
  start_dates : List Nat
  closed_dates : List Nat
  td : TMap

/-- Body of `for node in path:` — collect the set dates of the node's record
and write the node's current in- and out-degree back into the shared mapping;
nodes absent from the mapping are skipped. -/
def scanNode (G : DiGraph) (acc : ScanAcc) (n : String) : ScanAcc :=
  match acc.td n with
  | none => acc
  | some r =>
    { target_dates := acc.target_dates ++ r.target_date.toList
      start_dates := acc.start_dates ++ r.start_date.toList
      closed_dates := acc.closed_dates ++ r.closed_date.toList
      td := fun m =>
        if m = n then
          some { r with in_degree := some (G.inDegree n), out_degree := some (G.outDegree n) }
        else acc.td m }

/-- Scan of one path's nodes. -/
def scanPath (G : DiGraph) (td : TMap) (p : List String) : ScanAcc :=
  p.foldl (scanNode G) ⟨[], [], [], td⟩

/-- Body of `for path in all_paths:` in `find_paths_with_dates`: scan the
path's nodes, then append a `PathInfo` carrying the latest target date, the
earliest start date and the latest closed date collected. -/
def pathStep (G : DiGraph) (st : List PathInfo × TMap) (p : List String) :
    List PathInfo × TMap :=
  let acc := scanPath G st.2 p
  (st.1 ++
    [{ nodes := p
       target_date := listMax acc.target_dates
       start_date := listMin acc.start_dates
       closed_date := listMax acc.closed_dates }],
   acc.td)

/-- `find_paths_with_dates`: enumerate all simple paths between all ordered
pairs of distinct nodes, then attach the latest target date, earliest start
date and latest closed date of each path's nodes.  The mutated temporal
mapping is returned as the second component. -/
def find_paths_with_dates (G : DiGraph) (temporal_data : TMap) :
    List PathInfo × TMap :=
  let all_paths := allPathsList G
  if all_paths.isEmpty then ([], temporal_data)
  else all_paths.foldl (pathStep G) ([], temporal_data)

/-! ## Path ranking (`find_sorted_paths`) -/

/-- The sort key `x.target_date or datetime.min` of `find_sorted_paths`. -/
def sortKey (x : PathInfo) : Nat := x.target_date.getD datetimeMin

/-- The descending comparison induced by the sort key (`reverse=True`). -/
def sortLe (a b : PathInfo) : Bool := decide (sortKey b ≤ sortKey a)

/-- `find_sorted_paths`: stable sort by target date, latest first (a missing
target date sorts as `datetime.min`), truncated to `max_paths`.  Python's
`sorted` is a stable sort, embedded by the stable `List.mergeSort`. -/
def find_sorted_paths (path_infos : List PathInfo) (max_paths : Nat := 20) :
    List PathInfo :=
  (path_infos.mergeSort sortLe).take max_paths

/-! ## Network metrics (`analyze_network`) -/

/-- `attrs.get('type', 'Unknown')` for a node of the graph. -/
def typeOf (G : DiGraph) (n : String) : String :=
  match G.attrs n with
  | some a => a.type.getD "Unknown"
  | none => "Unknown"

/-- `attrs.get('state', 'Unknown')` for a node of the graph. -/
def stateOf (G : DiGraph) (n : String) : String :=
  match G.attrs n with
  | some a => a.state.getD "Unknown"
  | none => "Unknown"

/-- Categorical tally: `d[x] = d.get(x, 0) + 1` over a list of category
values, as a total function that is `0` elsewhere. -/
def tally (l : List String) : String → Nat :=
  l.foldl (fun m t => fun x => if x = t then m x + 1 else m x) (fun _ => 0)

/-- `nx.in_degree_centrality`, following the networkx implementation
(`degree_alg.py`): `{n: 1 for n in G}` when `len(G) <= 1`, otherwise
`deg * (1/(len(G)-1))`; real arithmetic is embedded as `ℚ`. -/
def in_degree_centrality (G : DiGraph) : String → Option ℚ :=
  if G.nodes.length ≤ 1 then fun n => if n ∈ G.nodes then some 1 else none
  else fun n =>
    if n ∈ G.nodes then
      some ((G.inDegree n : ℚ) * (1 / ((G.nodes.length : ℚ) - 1)))
    else none

/-- `nx.out_degree_centrality`, symmetric to `in_degree_centrality`. -/
def out_degree_centrality (G : DiGraph) : String → Option ℚ :=
  if G.nodes.length ≤ 1 then fun n => if n ∈ G.nodes then some 1 else none
  else fun n =>
    if n ∈ G.nodes then
      some ((G.outDegree n : ℚ) * (1 / ((G.nodes.length : ℚ) - 1)))
    else none

/-- The metrics record built by `analyze_network`.  The `is_dag` and
`topological_sort` entries of the Python dictionary are not modelled; no
theorem below concerns them. -/
structure NetworkMetrics where
  total_nodes : Nat
  total_edges : Nat
  node_types : String → Nat
  node_states : String → Nat
  in_degree_centrality : String → Option ℚ
  out_degree_centrality : String → Option ℚ

/-- `analyze_network`: node/edge counts, per-category tallies of the `type`
and `state` attributes (defaulting to `"Unknown"`), and degree centralities. -/
def analyze_network (G : DiGraph) : NetworkMetrics :=
  { total_nodes := G.nodes.length
    total_edges := G.edges.length
    node_types := tally (G.nodes.map (typeOf G))
    node_states := tally (G.nodes.map (stateOf G))
    in_degree_centrality := in_degree_centrality G
    out_degree_centrality := out_degree_centrality G }

/-! ## Timing auditor (`analyze_path_timing`) -/

/-- The five issue buckets of `analyze_path_timing`.  Entries are tuples of
the dictionary fields recorded by the Python code:
`missing_*` record `(node, path)`; `target_passed_without_close` records
`(node, target_date, path)`; the two predecessor buckets record
`(node, predecessor, offending date, predecessor target date, path)`. -/
structure TimingIssues where
  missing_start_dates : List (String × List String)
  missing_target_dates : List (String × List String)
  target_passed_without_close : List (String × Nat × List String)
  end_before_predecessor_end : List (String × String × Nat × Nat × List String)
  start_before_predecessor_end : List (String × String × Nat × Nat × List String)
deriving DecidableEq, Repr

def TimingIssues.empty : TimingIssues := ⟨[], [], [], [], []⟩

/-- Body of the auditor's inner loop for one node `n` at a non-first position
preceded by `prev` (or `prev = none` at the first position): a node absent
from the temporal mapping is skipped entirely, otherwise the five checks run
in source order, each appending one entry when it fires. -/
def auditStep (today : Nat) (td : TMap) (path : List String) (prev : Option String)
    (n : String) (issues : TimingIssues) : TimingIssues :=
  match td n with
  | none => issues
  | some nd =>
    let issues :=
      if nd.start_date.isNone then
        { issues with missing_start_dates := issues.missing_start_dates ++ [(n, path)] }
      else issues
    let issues :=
      if nd.closed_date.isNone then
        { issues with missing_target_dates := issues.missing_target_dates ++ [(n, path)] }
      else issues
    let issues :=
      match nd.target_date with
      | some d =>
        if d < today && nd.closed_date.isNone then
          { issues with
            target_passed_without_close := issues.target_passed_without_close ++ [(n, d, path)] }
        else issues
      | none => issues
    match prev with
    | none => issues
    | some pn =>
      match td pn with
      | none => issues
      | some pd =>
        let issues :=
          match nd.target_date, pd.target_date with
          | some a, some b =>
            if a < b then
              { issues with
                end_before_predecessor_end :=
                  issues.end_before_predecessor_end ++ [(n, pn, a, b, path)] }
            else issues
          | _, _ => issues
        match nd.start_date, pd.target_date with
        | some a, some b =>
          if a < b then
            { issues with
              start_before_predecessor_end :=
                issues.start_before_predecessor_end ++ [(n, pn, a, b, path)] }
          else issues
        | _, _ => issues

/-- `for i, node in enumerate(path_info.nodes)`, carrying the previous node
in place of the index (`prev = none` exactly at index `0`). -/
def auditNodes (today : Nat) (td : TMap) (path : List String) :
    Option String → List String → TimingIssues → TimingIssues
  | _, [], issues => issues
  | prev, n :: rest, issues =>
    auditNodes today td path (some n) rest (auditStep today td path prev n issues)

/-- `analyze_path_timing`; `datetime.now()` is the explicit `today`
parameter, evaluated once per call. -/
def analyze_path_timing (today : Nat) (path_infos : List PathInfo)
    (temporal_data : TMap) : TimingIssues :=
  path_infos.foldl
    (fun issues pinfo => auditNodes today temporal_data pinfo.nodes none pinfo.nodes issues)
    TimingIssues.empty

/-! ## Characterization of the auditor's buckets -/

/-- Contribution of one node to `missing_start_dates`. -/
def genMissingStart (td : TMap) (path : List String) (n : String) :
    List (String × List String) :=
  match td n with
  | none => []
  | some nd => if nd.start_date.isNone then [(n, path)] else []

/-- Contribution of one node to `missing_target_dates` (the recorded
condition tests `closed_date`). -/
def genMissingTarget (td : TMap) (path : List String) (n : String) :
    List (String × List String) :=
  match td n with
  | none => []
  | some nd => if nd.closed_date.isNone then [(n, path)] else []

/-- Contribution of one node to `target_passed_without_close`. -/
def genTargetPassed (today : Nat) (td : TMap) (path : List String) (n : String) :
    List (String × Nat × List String) :=
  match td n with
  | none => []
  | some nd =>
    match nd.target_date with
    | some d => if d < today && nd.closed_date.isNone then [(n, d, path)] else []
    | none => []

/-- Contribution of one (predecessor, node) step to
`end_before_predecessor_end`. -/
def genEndBefore (td : TMap) (path : List String) (prev : Option String) (n : String) :
    List (String × String × Nat × Nat × List String) :=
  match td n with
  | none => []
  | some nd =>
    match prev with
    | none => []
    | some pn =>
      match td pn with
      | none => []
      | some pd =>
        match nd.target_date, pd.target_date with
        | some a, some b => if a < b then [(n, pn, a, b, path)] else []
        | _, _ => []

/-- Contribution of one (predecessor, node) step to
`start_before_predecessor_end`. -/
def genStartBefore (td : TMap) (path : List String) (prev : Option String) (n : String) :
    List (String × String × Nat × Nat × List String) :=
  match td n with
  | none => []
  | some nd =>
    match prev with
    | none => []
    | some pn =>
      match td pn with
      | none => []
      | some pd =>
        match nd.start_date, pd.target_date with
        | some a, some b => if a < b then [(n, pn, a, b, path)] else []
        | _, _ => []

lemma auditStep_eq (today : Nat) (td : TMap) (path : List String)
    (prev : Option String) (n : String) (issues : TimingIssues) :
    auditStep today td path prev n issues =
      { missing_start_dates := issues.missing_start_dates ++ genMissingStart td path n
        missing_target_dates := issues.missing_target_dates ++ genMissingTarget td path n
        target_passed_without_close :=
          issues.target_passed_without_close ++ genTargetPassed today td path n
        end_before_predecessor_end :=
          issues.end_before_predecessor_end ++ genEndBefore td path prev n
        start_before_predecessor_end :=
          issues.start_before_predecessor_end ++ genStartBefore td path prev n } := by
  cases issues with
  | mk ms mt tp eb sb =>
    simp only [auditStep, genMissingStart, genMissingTarget, genTargetPassed,
      genEndBefore, genStartBefore]
    rcases htn : td n with _ | ⟨sd, tdt, cd, ind, outd, opp⟩
    · simp
    · rcases prev with _ | pn
      · rcases sd with _ | a <;> rcases cd with _ | b <;> rcases tdt with _ | c <;>
          simp <;> split_ifs <;> simp
      · rcases htp : td pn with _ | ⟨psd, ptd, pcd, pind, poutd, popp⟩
        · rcases sd with _ | a <;> rcases cd with _ | b <;> rcases tdt with _ | c <;>
            simp [htp] <;> split_ifs <;> simp
        · rcases sd with _ | a <;> rcases cd with _ | b <;> rcases tdt with _ | c <;>
            rcases ptd with _ | e <;>
            simp [htp] <;> split_ifs <;> simp_all

/-- The (predecessor, node) pairs visited by the auditor's inner loop when the
remaining nodes are `ns` and the previous node is `prev`. -/
def pairsFrom (prev : Option String) (ns : List String) : List (String × String) :=
  match prev with
  | none => ns.zip ns.tail
  | some p0 => (p0 :: ns).zip ns

lemma pairsFrom_cons (prev : Option String) (n : String) (rest : List String) :
    pairsFrom prev (n :: rest) =
      (match prev with | none => [] | some p0 => [(p0, n)]) ++ pairsFrom (some n) rest := by
  cases prev <;> rfl

lemma genEndBefore_none (td : TMap) (path : List String) (n : String) :
    genEndBefore td path none n = [] := by
  unfold genEndBefore; cases td n <;> rfl

lemma genStartBefore_none (td : TMap) (path : List String) (n : String) :
    genStartBefore td path none n = [] := by
  unfold genStartBefore; cases td n <;> rfl

lemma auditNodes_eq (today : Nat) (td : TMap) (path : List String)
    (prev : Option String) (ns : List String) (issues : TimingIssues) :
    auditNodes today td path prev ns issues =
      { missing_start_dates :=
          issues.missing_start_dates ++ ns.flatMap (genMissingStart td path)
        missing_target_dates :=
          issues.missing_target_dates ++ ns.flatMap (genMissingTarget td path)
        target_passed_without_close :=
          issues.target_passed_without_close ++ ns.flatMap (genTargetPassed today td path)
        end_before_predecessor_end :=
          issues.end_before_predecessor_end ++
            (pairsFrom prev ns).flatMap (fun q => genEndBefore td path (some q.1) q.2)
        start_before_predecessor_end :=
          issues.start_before_predecessor_end ++
            (pairsFrom prev ns).flatMap (fun q => genStartBefore td path (some q.1) q.2) } := by
  induction ns generalizing prev issues with
  | nil =>
    cases issues with
    | mk ms mt tp eb sb => cases prev <;> simp [auditNodes, pairsFrom]
  | cons n rest ih =>
    rw [auditNodes, ih, auditStep_eq, pairsFrom_cons]
    cases prev with
    | none =>
      simp [genEndBefore_none, genStartBefore_none]
    | some p0 =>
      rcases htn : td n with _ | nd
      · simp [genEndBefore, genStartBefore, genMissingStart, genMissingTarget,
          genTargetPassed, htn]
      · simp [htn, List.append_assoc]

lemma analyze_path_timing_eq (today : Nat) (infos : List PathInfo) (td : TMap) :
    analyze_path_timing today infos td =
      { missing_start_dates :=
          infos.flatMap (fun pinfo => pinfo.nodes.flatMap (genMissingStart td pinfo.nodes))
        missing_target_dates :=
          infos.flatMap (fun pinfo => pinfo.nodes.flatMap (genMissingTarget td pinfo.nodes))
        target_passed_without_close :=
          infos.flatMap (fun pinfo => pinfo.nodes.flatMap (genTargetPassed today td pinfo.nodes))
        end_before_predecessor_end :=
          infos.flatMap (fun pinfo =>
            (pairsFrom none pinfo.nodes).flatMap
              (fun q => genEndBefore td pinfo.nodes (some q.1) q.2))
        start_before_predecessor_end :=
          infos.flatMap (fun pinfo =>
            (pairsFrom none pinfo.nodes).flatMap
              (fun q => genStartBefore td pinfo.nodes (some q.1) q.2)) } := by
  have main : ∀ (infos : List PathInfo) (issues : TimingIssues),
      infos.foldl
          (fun iss pinfo => auditNodes today td pinfo.nodes none pinfo.nodes iss) issues =
        { missing_start_dates :=
            issues.missing_start_dates ++
              infos.flatMap (fun pinfo => pinfo.nodes.flatMap (genMissingStart td pinfo.nodes))
          missing_target_dates :=
            issues.missing_target_dates ++
              infos.flatMap (fun pinfo => pinfo.nodes.flatMap (genMissingTarget td pinfo.nodes))
          target_passed_without_close :=
            issues.target_passed_without_close ++
              infos.flatMap (fun pinfo => pinfo.nodes.flatMap (genTargetPassed today td pinfo.nodes))
          end_before_predecessor_end :=
            issues.end_before_predecessor_end ++
              infos.flatMap (fun pinfo =>
                (pairsFrom none pinfo.nodes).flatMap
                  (fun q => genEndBefore td pinfo.nodes (some q.1) q.2))
          start_before_predecessor_end :=
            issues.start_before_predecessor_end ++
              infos.flatMap (fun pinfo =>
                (pairsFrom none pinfo.nodes).flatMap
                  (fun q => genStartBefore td pinfo.nodes (some q.1) q.2)) } := by
    intro infos
    induction infos with
    | nil => intro issues; cases issues; simp
    | cons pinfo rest ih =>
      intro issues
      rw [List.foldl_cons, ih, auditNodes_eq]
      simp [List.append_assoc]
  rw [analyze_path_timing, main]
  simp [TimingIssues.empty]

lemma mem_genMissingStart {td : TMap} {path : List String} {m n : String}
    {p : List String} :
    (n, p) ∈ genMissingStart td path m ↔
      n = m ∧ p = path ∧ ∃ r, td m = some r ∧ r.start_date = none := by
  unfold genMissingStart
  rcases h : td m with _ | r
  · simp
  · cases hs : r.start_date <;> simp [hs, Option.isNone]

lemma mem_genMissingTarget {td : TMap} {path : List String} {m n : String}
    {p : List String} :
    (n, p) ∈ genMissingTarget td path m ↔
      n = m ∧ p = path ∧ ∃ r, td m = some r ∧ r.closed_date = none := by
  unfold genMissingTarget
  rcases h : td m with _ | r
  · simp
  · cases hs : r.closed_date <;> simp [hs, Option.isNone]

lemma mem_genEndBefore {td : TMap} {path : List String} {pn m n pn' : String}
    {a b : Nat} {p : List String} :
    (n, pn', a, b, p) ∈ genEndBefore td path (some pn) m ↔
      n = m ∧ pn' = pn ∧ p = path ∧
        ∃ r rp, td m = some r ∧ td pn = some rp ∧
          r.target_date = some a ∧ rp.target_date = some b ∧ a < b := by
  unfold genEndBefore
  rcases h : td m with _ | r
  · simp
  · rcases hp : td pn with _ | rp
    · simp [hp]
    · rcases ht : r.target_date with _ | x <;> rcases hpt : rp.target_date with _ | y <;>
        simp [hp, ht, hpt]
      constructor
      · rintro ⟨h1, rfl, rfl, rfl, rfl, rfl⟩; exact ⟨rfl, rfl, rfl, rfl, rfl, h1⟩
      · rintro ⟨rfl, rfl, rfl, rfl, rfl, h1⟩; exact ⟨h1, rfl, rfl, rfl, rfl, rfl⟩

lemma mem_genStartBefore {td : TMap} {path : List String} {pn m n pn' : String}
    {a b : Nat} {p : List String} :
    (n, pn', a, b, p) ∈ genStartBefore td path (some pn) m ↔
      n = m ∧ pn' = pn ∧ p = path ∧
        ∃ r rp, td m = some r ∧ td pn = some rp ∧
          r.start_date = some a ∧ rp.target_date = some b ∧ a < b := by
  unfold genStartBefore
  rcases h : td m with _ | r
  · simp
  · rcases hp : td pn with _ | rp
    · simp [hp]
    · rcases ht : r.start_date with _ | x <;> rcases hpt : rp.target_date with _ | y <;>
        simp [hp, ht, hpt]
      constructor
      · rintro ⟨h1, rfl, rfl, rfl, rfl, rfl⟩; exact ⟨rfl, rfl, rfl, rfl, rfl, h1⟩
      · rintro ⟨rfl, rfl, rfl, rfl, rfl, h1⟩; exact ⟨h1, rfl, rfl, rfl, rfl, rfl⟩

/-- The consecutive pairs of a list are exactly its two-element infixes. -/
lemma mem_zip_tail_iff {l : List String} {x y : String} :
    (x, y) ∈ l.zip l.tail ↔ ∃ l1 l2, l = l1 ++ x :: y :: l2 := by
  induction l with
  | nil => simp
  | cons a rest ih =>
    cases rest with
    | nil =>
      simp only [List.tail_cons, List.zip_nil_right, List.not_mem_nil, false_iff]
      rintro ⟨l1, l2, h⟩
      rcases l1 with _ | ⟨c, l1⟩ <;> simp at h
    | cons b rest' =>
      simp only [List.tail_cons, List.zip_cons_cons, List.mem_cons, Prod.mk.injEq]
      rw [show (b :: rest').zip rest' = (b :: rest').zip (b :: rest').tail from rfl, ih]
      constructor
      · rintro (⟨rfl, rfl⟩ | ⟨l1, l2, h⟩)
        · exact ⟨[], rest', rfl⟩
        · exact ⟨a :: l1, l2, by rw [List.cons_append, h]⟩
      · rintro ⟨l1, l2, h⟩
        rcases l1 with _ | ⟨c, l1⟩
        · injection h with h1 h2
          injection h2 with h3 h4
          subst h1; subst h3; subst h4
          exact Or.inl ⟨rfl, rfl⟩
        · rw [List.cons_append] at h
          injection h with h1 h2
          exact Or.inr ⟨l1, l2, h2⟩

lemma analyze_missing_start (today : Nat) (infos : List PathInfo) (td : TMap) :
    (analyze_path_timing today infos td).missing_start_dates =
      infos.flatMap (fun pinfo => pinfo.nodes.flatMap (genMissingStart td pinfo.nodes)) := by
  rw [analyze_path_timing_eq]

lemma analyze_missing_target (today : Nat) (infos : List PathInfo) (td : TMap) :
    (analyze_path_timing today infos td).missing_target_dates =
      infos.flatMap (fun pinfo => pinfo.nodes.flatMap (genMissingTarget td pinfo.nodes)) := by
  rw [analyze_path_timing_eq]

lemma analyze_end_before (today : Nat) (infos : List PathInfo) (td : TMap) :
    (analyze_path_timing today infos td).end_before_predecessor_end =
      infos.flatMap (fun pinfo =>
        (pinfo.nodes.zip pinfo.nodes.tail).flatMap
          (fun q => genEndBefore td pinfo.nodes (some q.1) q.2)) := by
  rw [analyze_path_timing_eq]; rfl

lemma analyze_start_before (today : Nat) (infos : List PathInfo) (td : TMap) :
    (analyze_path_timing today infos td).start_before_predecessor_end =
      infos.flatMap (fun pinfo =>
        (pinfo.nodes.zip pinfo.nodes.tail).flatMap
          (fun q => genStartBefore td pinfo.nodes (some q.1) q.2)) := by
  rw [analyze_path_timing_eq]; rfl

/-- **C4.** An entry `(n, p)` lands in the `missing_target_dates` bucket of
`analyze_path_timing` iff `n` occurs on a path `p` of the input and `n`'s
temporal record has no `closed_date` (the recorded condition tests
`closed_date`, not `target_date`); an entry lands in `missing_start_dates`
iff the record has no `start_date`, independent of the node's position.
Nodes absent from the temporal mapping raise no issue. -/
theorem missing_buckets_iff (today : Nat) (infos : List PathInfo) (td : TMap)
    (n : String) (p : List String) :
    ((n, p) ∈ (analyze_path_timing today infos td).missing_target_dates ↔
      ∃ pinfo ∈ infos, pinfo.nodes = p ∧ n ∈ p ∧
        ∃ r, td n = some r ∧ r.closed_date = none)
    ∧ ((n, p) ∈ (analyze_path_timing today infos td).missing_start_dates ↔
      ∃ pinfo ∈ infos, pinfo.nodes = p ∧ n ∈ p ∧
        ∃ r, td n = some r ∧ r.start_date = none) := by
  constructor
  · rw [analyze_missing_target]
    simp only [List.mem_flatMap]
    constructor
    · rintro ⟨pinfo, hpi, m, hm, hmem⟩
      rw [mem_genMissingTarget] at hmem
      obtain ⟨rfl, rfl, hr⟩ := hmem
      exact ⟨pinfo, hpi, rfl, hm, hr⟩
    · rintro ⟨pinfo, hpi, rfl, hn, hr⟩
      exact ⟨pinfo, hpi, n, hn, mem_genMissingTarget.mpr ⟨rfl, rfl, hr⟩⟩
  · rw [analyze_missing_start]
    simp only [List.mem_flatMap]
    constructor
    · rintro ⟨pinfo, hpi, m, hm, hmem⟩
      rw [mem_genMissingStart] at hmem
      obtain ⟨rfl, rfl, hr⟩ := hmem
      exact ⟨pinfo, hpi, rfl, hm, hr⟩
    · rintro ⟨pinfo, hpi, rfl, hn, hr⟩
      exact ⟨pinfo, hpi, n, hn, mem_genMissingStart.mpr ⟨rfl, rfl, hr⟩⟩

/-- **C5.** The two predecessor checks of `analyze_path_timing` fire exactly
for a node at a non-initial position (so `p = l1 ++ pn :: n :: l2` with `pn`
the immediately preceding node — the first node of a path never triggers
them), with both involved dates set and compared by strict inequality:
`end_before_predecessor_end` compares the node's `target_date` with the
predecessor's `target_date`, and `start_before_predecessor_end` compares the
node's `start_date` with the predecessor's `target_date`. -/
theorem predecessor_checks_iff (today : Nat) (infos : List PathInfo) (td : TMap)
    (n pn : String) (a b : Nat) (p : List String) :
    ((n, pn, a, b, p) ∈ (analyze_path_timing today infos td).end_before_predecessor_end ↔
      ∃ pinfo ∈ infos, pinfo.nodes = p ∧ (∃ l1 l2, p = l1 ++ pn :: n :: l2) ∧
        ∃ r rp, td n = some r ∧ td pn = some rp ∧
          r.target_date = some a ∧ rp.target_date = some b ∧ a < b)
    ∧ ((n, pn, a, b, p) ∈ (analyze_path_timing today infos td).start_before_predecessor_end ↔
      ∃ pinfo ∈ infos, pinfo.nodes = p ∧ (∃ l1 l2, p = l1 ++ pn :: n :: l2) ∧
        ∃ r rp, td n = some r ∧ td pn = some rp ∧
          r.start_date = some a ∧ rp.target_date = some b ∧ a < b) := by
  constructor
  · rw [analyze_end_before]
    simp only [List.mem_flatMap]
    constructor
    · rintro ⟨pinfo, hpi, ⟨q1, q2⟩, hq, hmem⟩
      rw [mem_genEndBefore] at hmem
      obtain ⟨rfl, rfl, rfl, hr⟩ := hmem
      exact ⟨pinfo, hpi, rfl, mem_zip_tail_iff.mp hq, hr⟩
    · rintro ⟨pinfo, hpi, rfl, hinf, hr⟩
      exact ⟨pinfo, hpi, (pn, n), mem_zip_tail_iff.mpr hinf,
        mem_genEndBefore.mpr ⟨rfl, rfl, rfl, hr⟩⟩
  · rw [analyze_start_before]
    simp only [List.mem_flatMap]
    constructor
    · rintro ⟨pinfo, hpi, ⟨q1, q2⟩, hq, hmem⟩
      rw [mem_genStartBefore] at hmem
      obtain ⟨rfl, rfl, rfl, hr⟩ := hmem
      exact ⟨pinfo, hpi, rfl, mem_zip_tail_iff.mp hq, hr⟩
    · rintro ⟨pinfo, hpi, rfl, hinf, hr⟩
      exact ⟨pinfo, hpi, (pn, n), mem_zip_tail_iff.mpr hinf,
        mem_genStartBefore.mpr ⟨rfl, rfl, rfl, hr⟩⟩

/-- **C7.** A graph with zero enumerable paths is a non-error outcome that
propagates: `find_paths_with_dates` returns the empty list (with the temporal
mapping untouched), ranking an empty list yields an empty list, and auditing
an empty list yields exactly the five issue buckets, each empty. -/
theorem no_paths_empty_propagation (G : DiGraph) (td : TMap) (today K : Nat)
    (h : ∀ s ∈ G.nodes, ∀ t ∈ G.nodes, s ≠ t → allSimplePaths G s t = []) :
    (find_paths_with_dates G td).1 = [] ∧ (find_paths_with_dates G td).2 = td ∧
    find_sorted_paths [] K = [] ∧
    analyze_path_timing today [] td = TimingIssues.empty := by
  have hap : allPathsList G = [] := by
    unfold allPathsList
    rw [List.flatMap_eq_nil_iff]
    intro s hs
    rw [List.flatMap_eq_nil_iff]
    intro t ht
    by_cases hst : s = t
    · simp [hst]
    · simp [hst, h s hs t ht hst]
  refine ⟨?_, ?_, ?_, rfl⟩
  · rw [find_paths_with_dates, hap]; rfl
  · rw [find_paths_with_dates, hap]; rfl
  · simp [find_sorted_paths]

/-- Two isolated nodes: a graph with zero enumerable paths. -/
def exGraphNoPaths : DiGraph :=
  create_dag [("X", { type := "t", state := "s" }), ("Y", { type := "t", state := "s" })]

/-- An empty temporal mapping. -/
def exTMapEmpty : TMap := fun _ => none

theorem no_paths_empty_propagation_witness :
    (∀ s ∈ exGraphNoPaths.nodes, ∀ t ∈ exGraphNoPaths.nodes, s ≠ t →
        allSimplePaths exGraphNoPaths s t = []) ∧
      ((find_paths_with_dates exGraphNoPaths exTMapEmpty).1 = [] ∧
        (find_paths_with_dates exGraphNoPaths exTMapEmpty).2 = exTMapEmpty ∧
        find_sorted_paths [] 20 = [] ∧
        analyze_path_timing 0 [] exTMapEmpty = TimingIssues.empty) :=
  ⟨by decide, no_paths_empty_propagation exGraphNoPaths exTMapEmpty 0 20 (by decide)⟩

/-! ## Characterization of the temporal aggregation -/

/-- The date fields of a record, the part of the shared state the degree
write-back never touches. -/
def dateTriple (r : NodeTemporalInfo) : Option Nat × Option Nat × Option Nat :=
  (r.start_date, r.target_date, r.closed_date)

/-- The degree write-back performed on a record of a node lying on a path. -/
def setDegrees (G : DiGraph) (m : String) (r : NodeTemporalInfo) : NodeTemporalInfo :=
  { r with in_degree := some (G.inDegree m), out_degree := some (G.outDegree m) }

/-- The dates collected along a path from the records of its nodes, selecting
one of the three date fields with `g`. -/
def collectDates (td : TMap) (p : List String)
    (g : Option Nat × Option Nat × Option Nat → Option Nat) : List Nat :=
  p.flatMap (fun n =>
    match td n with
    | none => []
    | some r => (g (dateTriple r)).toList)

lemma collectDates_congr {td₁ td₂ : TMap}
    (h : ∀ m, (td₁ m).map dateTriple = (td₂ m).map dateTriple)
    (p : List String) (g : Option Nat × Option Nat × Option Nat → Option Nat) :
    collectDates td₁ p g = collectDates td₂ p g := by
  unfold collectDates
  induction p with
  | nil => rfl
  | cons n rest ih =>
    rw [List.flatMap_cons, List.flatMap_cons, ih]
    congr 1
    have hn := h n
    rcases h1 : td₁ n with _ | r1 <;> rcases h2 : td₂ n with _ | r2 <;>
      rw [h1, h2] at hn <;> simp_all

lemma mem_collectDates {td : TMap} {p : List String}
    {g : Option Nat × Option Nat × Option Nat → Option Nat} {d : Nat} :
    d ∈ collectDates td p g ↔
      ∃ n ∈ p, ∃ r, td n = some r ∧ g (dateTriple r) = some d := by
  unfold collectDates
  simp only [List.mem_flatMap]
  constructor
  · rintro ⟨n, hn, hmem⟩
    rcases h : td n with _ | r
    · rw [h] at hmem; simp at hmem
    · rw [h] at hmem
      simp only [Option.mem_toList, Option.mem_def] at hmem
      exact ⟨n, hn, r, h, hmem⟩
  · rintro ⟨n, hn, r, hr, hg⟩
    refine ⟨n, hn, ?_⟩
    rw [hr]
    simp [hg]

lemma scanNode_td (G : DiGraph) (acc : ScanAcc) (n : String) :
    (scanNode G acc n).td = fun m =>
      match acc.td n with
      | none => acc.td m
      | some r => if m = n then some (setDegrees G n r) else acc.td m := by
  funext m
  unfold scanNode setDegrees
  rcases h : acc.td n with _ | r <;> simp [h]

lemma scanNode_target (G : DiGraph) (acc : ScanAcc) (n : String) :
    (scanNode G acc n).target_dates =
      acc.target_dates ++
        (match acc.td n with
         | none => []
         | some r => r.target_date.toList) := by
  unfold scanNode
  rcases h : acc.td n with _ | r <;> simp [h]

lemma scanNode_start (G : DiGraph) (acc : ScanAcc) (n : String) :
    (scanNode G acc n).start_dates =
      acc.start_dates ++
        (match acc.td n with
         | none => []
         | some r => r.start_date.toList) := by
  unfold scanNode
  rcases h : acc.td n with _ | r <;> simp [h]

lemma scanNode_closed (G : DiGraph) (acc : ScanAcc) (n : String) :
    (scanNode G acc n).closed_dates =
      acc.closed_dates ++
        (match acc.td n with
         | none => []
         | some r => r.closed_date.toList) := by
  unfold scanNode
  rcases h : acc.td n with _ | r <;> simp [h]

lemma scanNode_dateTriple (G : DiGraph) (acc : ScanAcc) (n m : String) :
    ((scanNode G acc n).td m).map dateTriple = (acc.td m).map dateTriple := by
  rw [scanNode_td]
  rcases h : acc.td n with _ | r
  · rfl
  · by_cases hm : m = n
    · subst hm; simp [h, setDegrees, dateTriple]
    · simp [hm]

lemma scanFold_spec (G : DiGraph) (p : List String) : ∀ acc : ScanAcc,
    (p.foldl (scanNode G) acc).target_dates
        = acc.target_dates ++ collectDates acc.td p (fun t => t.2.1) ∧
    (p.foldl (scanNode G) acc).start_dates
        = acc.start_dates ++ collectDates acc.td p (fun t => t.1) ∧
    (p.foldl (scanNode G) acc).closed_dates
        = acc.closed_dates ++ collectDates acc.td p (fun t => t.2.2) ∧
    ∀ m, (p.foldl (scanNode G) acc).td m =
      match acc.td m with
      | none => none
      | some r => if m ∈ p then some (setDegrees G m r) else some r := by
  induction p with
  | nil =>
    intro acc
    refine ⟨by simp [collectDates], by simp [collectDates], by simp [collectDates], ?_⟩
    intro m
    rcases h : acc.td m with _ | r <;> simp [h]
  | cons n rest ih =>
    intro acc
    rw [List.foldl_cons]
    obtain ⟨iht, ihs, ihc, ihtd⟩ := ih (scanNode G acc n)
    have hcongr := fun g => collectDates_congr (scanNode_dateTriple G acc n) rest g
    refine ⟨?_, ?_, ?_, ?_⟩
    · rw [iht, scanNode_target, hcongr]
      rcases h : acc.td n with _ | r <;>
        simp [collectDates, h, dateTriple, List.append_assoc]
    · rw [ihs, scanNode_start, hcongr]
      rcases h : acc.td n with _ | r <;>
        simp [collectDates, h, dateTriple, List.append_assoc]
    · rw [ihc, scanNode_closed, hcongr]
      rcases h : acc.td n with _ | r <;>
        simp [collectDates, h, dateTriple, List.append_assoc]
    · intro m
      rw [ihtd m, scanNode_td]
      dsimp only
      rcases h : acc.td n with _ | r
      · by_cases hm : m = n
        · subst hm; simp [h]
        · rcases h2 : acc.td m with _ | r2 <;> simp [hm, h2, List.mem_cons]
      · by_cases hm : m = n
        · subst hm
          by_cases hrest : m ∈ rest <;>
            simp [h, hrest, List.mem_cons, setDegrees]
        · rcases h2 : acc.td m with _ | r2 <;> simp [hm, h2, List.mem_cons]

lemma scanPath_target (G : DiGraph) (td : TMap) (p : List String) :
    (scanPath G td p).target_dates = collectDates td p (fun t => t.2.1) := by
  have := (scanFold_spec G p ⟨[], [], [], td⟩).1
  simpa [scanPath] using this

lemma scanPath_start (G : DiGraph) (td : TMap) (p : List String) :
    (scanPath G td p).start_dates = collectDates td p (fun t => t.1) := by
  have := (scanFold_spec G p ⟨[], [], [], td⟩).2.1
  simpa [scanPath] using this

lemma scanPath_closed (G : DiGraph) (td : TMap) (p : List String) :
    (scanPath G td p).closed_dates = collectDates td p (fun t => t.2.2) := by
  have := (scanFold_spec G p ⟨[], [], [], td⟩).2.2.1
  simpa [scanPath] using this

lemma scanPath_td (G : DiGraph) (td : TMap) (p : List String) (m : String) :
    (scanPath G td p).td m =
      match td m with
      | none => none
      | some r => if m ∈ p then some (setDegrees G m r) else some r :=
  (scanFold_spec G p ⟨[], [], [], td⟩).2.2.2 m

lemma scanPath_dateTriple (G : DiGraph) (td : TMap) (p : List String) (m : String) :
    ((scanPath G td p).td m).map dateTriple = (td m).map dateTriple := by
  rw [scanPath_td]
  rcases h : td m with _ | r
  · rfl
  · by_cases hm : m ∈ p <;> simp [hm, setDegrees, dateTriple]

/-- The `PathInfo` attached to a path `p` when the temporal mapping's date
fields are those of `td`. -/
def mkPathInfo (td : TMap) (p : List String) : PathInfo :=
  { nodes := p
    target_date := listMax (collectDates td p (fun t => t.2.1))
    start_date := listMin (collectDates td p (fun t => t.1))
    closed_date := listMax (collectDates td p (fun t => t.2.2)) }

lemma mkPathInfo_congr {td₁ td₂ : TMap}
    (h : ∀ m, (td₁ m).map dateTriple = (td₂ m).map dateTriple) (p : List String) :
    mkPathInfo td₁ p = mkPathInfo td₂ p := by
  unfold mkPathInfo
  rw [collectDates_congr h, collectDates_congr h, collectDates_congr h]

lemma pathStep_eq (G : DiGraph) (st : List PathInfo × TMap) (p : List String) :
    pathStep G st p = (st.1 ++ [mkPathInfo st.2 p], (scanPath G st.2 p).td) := by
  unfold pathStep mkPathInfo
  dsimp only
  rw [scanPath_target, scanPath_start, scanPath_closed]

lemma findFold_spec (G : DiGraph) (ps : List (List String)) :
    ∀ (infos : List PathInfo) (td : TMap),
    (ps.foldl (pathStep G) (infos, td)).1 = infos ++ ps.map (mkPathInfo td) ∧
    ∀ m, (ps.foldl (pathStep G) (infos, td)).2 m =
      match td m with
      | none => none
      | some r => if ∃ p ∈ ps, m ∈ p then some (setDegrees G m r) else some r := by
  induction ps with
  | nil =>
    intro infos td
    refine ⟨by simp, ?_⟩
    intro m
    rcases h : td m with _ | r <;> simp [h]
  | cons p rest ih =>
    intro infos td
    rw [List.foldl_cons, pathStep_eq]
    obtain ⟨ih1, ih2⟩ := ih (infos ++ [mkPathInfo td p]) ((scanPath G td p).td)
    constructor
    · rw [ih1, List.map_congr_left
        (fun q _ => mkPathInfo_congr (scanPath_dateTriple G td p) q)]
      simp [List.append_assoc]
    · intro m
      rw [ih2 m, scanPath_td]
      rcases h : td m with _ | r
      · simp
      · by_cases hp : m ∈ p
        · have hex : ∃ q ∈ p :: rest, m ∈ q := ⟨p, List.mem_cons_self _ _, hp⟩
          by_cases hrest : ∃ q ∈ rest, m ∈ q <;>
            simp [hp, hrest, hex, setDegrees]
        · by_cases hrest : ∃ q ∈ rest, m ∈ q
          · have hex : ∃ q ∈ p :: rest, m ∈ q := by
              obtain ⟨q, hq, hm⟩ := hrest
              exact ⟨q, List.mem_cons_of_mem _ hq, hm⟩
            simp [hp, hrest, hex]
          · have hex : ¬ ∃ q ∈ p :: rest, m ∈ q := by
              rintro ⟨q, hq, hm⟩
              rcases List.mem_cons.mp hq with rfl | hq
              · exact hp hm
              · exact hrest ⟨q, hq, hm⟩
            simp [hp, hrest, hex]

lemma find_paths_fst (G : DiGraph) (td : TMap) :
    (find_paths_with_dates G td).1 = (allPathsList G).map (mkPathInfo td) := by
  unfold find_paths_with_dates
  by_cases h : (allPathsList G).isEmpty
  · rw [if_pos h]
    rw [List.isEmpty_iff.mp h]
    rfl
  · rw [if_neg h]
    have := (findFold_spec G (allPathsList G) [] td).1
    simpa using this

lemma find_paths_snd (G : DiGraph) (td : TMap) (m : String) :
    (find_paths_with_dates G td).2 m =
      match td m with
      | none => none
      | some r =>
        if ∃ p ∈ allPathsList G, m ∈ p then some (setDegrees G m r) else some r := by
  unfold find_paths_with_dates
  by_cases h : (allPathsList G).isEmpty
  · rw [if_pos h]
    rw [List.isEmpty_iff.mp h]
    rcases h2 : td m with _ | r <;> simp [h2]
  · rw [if_neg h]
    exact (findFold_spec G (allPathsList G) [] td).2 m

lemma listMax_collect_spec (td : TMap) (p : List String)
    (g : Option Nat × Option Nat × Option Nat → Option Nat) :
    (listMax (collectDates td p g) = none →
        ∀ n ∈ p, ∀ r, td n = some r → g (dateTriple r) = none) ∧
    (∀ d, listMax (collectDates td p g) = some d →
        (∃ n ∈ p, ∃ r, td n = some r ∧ g (dateTriple r) = some d) ∧
        (∀ n ∈ p, ∀ r, td n = some r → ∀ e, g (dateTriple r) = some e → e ≤ d)) := by
  constructor
  · intro h n hn r hr
    by_contra hne
    rcases Option.ne_none_iff_exists'.mp hne with ⟨d, hd⟩
    have hmem : d ∈ collectDates td p g := mem_collectDates.mpr ⟨n, hn, r, hr, hd⟩
    rw [listMax_eq_none_iff.mp h] at hmem
    simp at hmem
  · intro d hd
    refine ⟨mem_collectDates.mp (listMax_mem hd), ?_⟩
    intro n hn r hr e he
    exact listMax_is_ub hd e (mem_collectDates.mpr ⟨n, hn, r, hr, he⟩)

lemma listMin_collect_spec (td : TMap) (p : List String)
    (g : Option Nat × Option Nat × Option Nat → Option Nat) :
    (listMin (collectDates td p g) = none →
        ∀ n ∈ p, ∀ r, td n = some r → g (dateTriple r) = none) ∧
    (∀ d, listMin (collectDates td p g) = some d →
        (∃ n ∈ p, ∃ r, td n = some r ∧ g (dateTriple r) = some d) ∧
        (∀ n ∈ p, ∀ r, td n = some r → ∀ e, g (dateTriple r) = some e → d ≤ e)) := by
  constructor
  · intro h n hn r hr
    by_contra hne
    rcases Option.ne_none_iff_exists'.mp hne with ⟨d, hd⟩
    have hmem : d ∈ collectDates td p g := mem_collectDates.mpr ⟨n, hn, r, hr, hd⟩
    rw [listMin_eq_none_iff.mp h] at hmem
    simp at hmem
  · intro d hd
    refine ⟨mem_collectDates.mp (listMin_mem hd), ?_⟩
    intro n hn r hr e he
    exact listMin_is_lb hd e (mem_collectDates.mpr ⟨n, hn, r, hr, he⟩)

/-- **C1.** For every enumerated path, the attached `PathInfo` carries as
`target_date` the maximum `target_date` over the path's nodes that are present
in the temporal mapping and have it set (`none` when no such node exists), as
`start_date` the minimum such `start_date`, and as `closed_date` the maximum
such `closed_date`; absent nodes contribute nothing.  The dates are those of
the mapping as passed in (the degree write-back does not disturb them). -/
theorem pathinfo_date_envelope (G : DiGraph) (td : TMap) (pinfo : PathInfo)
    (hmem : pinfo ∈ (find_paths_with_dates G td).1) :
    ((pinfo.target_date = none →
        ∀ n ∈ pinfo.nodes, ∀ r, td n = some r → r.target_date = none) ∧
     (∀ d, pinfo.target_date = some d →
        (∃ n ∈ pinfo.nodes, ∃ r, td n = some r ∧ r.target_date = some d) ∧
        (∀ n ∈ pinfo.nodes, ∀ r, td n = some r →
          ∀ e, r.target_date = some e → e ≤ d)))
    ∧ ((pinfo.start_date = none →
        ∀ n ∈ pinfo.nodes, ∀ r, td n = some r → r.start_date = none) ∧
     (∀ d, pinfo.start_date = some d →
        (∃ n ∈ pinfo.nodes, ∃ r, td n = some r ∧ r.start_date = some d) ∧
        (∀ n ∈ pinfo.nodes, ∀ r, td n = some r →
          ∀ e, r.start_date = some e → d ≤ e)))
    ∧ ((pinfo.closed_date = none →
        ∀ n ∈ pinfo.nodes, ∀ r, td n = some r → r.closed_date = none) ∧
     (∀ d, pinfo.closed_date = some d →
        (∃ n ∈ pinfo.nodes, ∃ r, td n = some r ∧ r.closed_date = some d) ∧
        (∀ n ∈ pinfo.nodes, ∀ r, td n = some r →
          ∀ e, r.closed_date = some e → e ≤ d))) := by
  rw [find_paths_fst] at hmem
  obtain ⟨p, hp, rfl⟩ := List.mem_map.mp hmem
  exact ⟨listMax_collect_spec td p (fun t => t.2.1),
    listMin_collect_spec td p (fun t => t.1),
    listMax_collect_spec td p (fun t => t.2.2)⟩

/-- **C8.** The only change `find_paths_with_dates` makes to the shared
temporal mapping is the degree write-back: absent records stay absent, the
date and opportunity fields of every record survive unchanged, records of
nodes on no enumerated path are untouched, records of on-path nodes receive
exactly the graph-derived in- and out-degree, and re-running the aggregation
on the resulting mapping leaves it unchanged (the write is idempotent). -/
theorem temporal_mutation_frame (G : DiGraph) (td : TMap) :
    (∀ n, td n = none → (find_paths_with_dates G td).2 n = none) ∧
    (∀ n r, td n = some r →
      ∃ r', (find_paths_with_dates G td).2 n = some r' ∧
        r'.start_date = r.start_date ∧ r'.target_date = r.target_date ∧
        r'.closed_date = r.closed_date ∧ r'.opportunity = r.opportunity) ∧
    (∀ n, (∀ pinfo ∈ (find_paths_with_dates G td).1, n ∉ pinfo.nodes) →
      (find_paths_with_dates G td).2 n = td n) ∧
    (∀ n r, td n = some r →
      (∃ pinfo ∈ (find_paths_with_dates G td).1, n ∈ pinfo.nodes) →
      (find_paths_with_dates G td).2 n =
        some { r with in_degree := some (G.inDegree n),
                      out_degree := some (G.outDegree n) }) ∧
    (find_paths_with_dates G (find_paths_with_dates G td).2).2 =
      (find_paths_with_dates G td).2 := by
  refine ⟨?_, ?_, ?_, ?_, ?_⟩
  · intro n hn
    rw [find_paths_snd, hn]
  · intro n r hr
    rw [find_paths_snd, hr]
    by_cases hex : ∃ p ∈ allPathsList G, n ∈ p
    · exact ⟨setDegrees G n r, by simp [hex, setDegrees]⟩
    · exact ⟨r, by simp [hex]⟩
  · intro n hnone
    have hnp : ¬ ∃ p ∈ allPathsList G, n ∈ p := by
      rintro ⟨p, hp, hn⟩
      refine hnone (mkPathInfo td p) ?_ hn
      rw [find_paths_fst]
      exact List.mem_map_of_mem _ hp
    rw [find_paths_snd]
    rcases h : td n with _ | r <;> simp [h, hnp]
  · intro n r hr hex
    have hex' : ∃ p ∈ allPathsList G, n ∈ p := by
      obtain ⟨pinfo, hpi, hn⟩ := hex
      rw [find_paths_fst] at hpi
      obtain ⟨p, hp, rfl⟩ := List.mem_map.mp hpi
      exact ⟨p, hp, hn⟩
    rw [find_paths_snd, hr]
    simp [hex', setDegrees]
  · funext m
    rw [find_paths_snd, find_paths_snd]
    rcases h : td m with _ | r
    · simp
    · by_cases hex : ∃ p ∈ allPathsList G, m ∈ p <;> simp [hex, setDegrees]

/-- Example chain `A → B → C` (the scenario of the specification's testable
properties). -/
def exGraphABC : DiGraph :=
  create_dag
    [("A", { type := "t", state := "s", successors := ["B"] }),
     ("B", { type := "t", state := "s", successors := ["C"] }),
     ("C", { type := "t", state := "s" })]

/-- Example temporal mapping for `A`, `B`, `C`. -/
def exTd : TMap := fun n =>
  if n = "A" then
    some { start_date := some 1, target_date := some 10, closed_date := some 10 }
  else if n = "B" then
    some { start_date := some 5, target_date := some 9, closed_date := none }
  else if n = "C" then
    some { start_date := some 8, target_date := some 20, closed_date := none }
  else none

/-- The `PathInfo` of the path `[A, B, C]` under `exTd`. -/
def exPinfo : PathInfo :=
  { nodes := ["A", "B", "C"], target_date := some 20, start_date := some 1,
    closed_date := some 10 }

theorem pathinfo_date_envelope_witness :
    exPinfo ∈ (find_paths_with_dates exGraphABC exTd).1 ∧
    (((exPinfo.target_date = none →
        ∀ n ∈ exPinfo.nodes, ∀ r, exTd n = some r → r.target_date = none) ∧
     (∀ d, exPinfo.target_date = some d →
        (∃ n ∈ exPinfo.nodes, ∃ r, exTd n = some r ∧ r.target_date = some d) ∧
        (∀ n ∈ exPinfo.nodes, ∀ r, exTd n = some r →
          ∀ e, r.target_date = some e → e ≤ d)))
    ∧ ((exPinfo.start_date = none →
        ∀ n ∈ exPinfo.nodes, ∀ r, exTd n = some r → r.start_date = none) ∧
     (∀ d, exPinfo.start_date = some d →
        (∃ n ∈ exPinfo.nodes, ∃ r, exTd n = some r ∧ r.start_date = some d) ∧
        (∀ n ∈ exPinfo.nodes, ∀ r, exTd n = some r →
          ∀ e, r.start_date = some e → d ≤ e)))
    ∧ ((exPinfo.closed_date = none →
        ∀ n ∈ exPinfo.nodes, ∀ r, exTd n = some r → r.closed_date = none) ∧
     (∀ d, exPinfo.closed_date = some d →
        (∃ n ∈ exPinfo.nodes, ∃ r, exTd n = some r ∧ r.closed_date = some d) ∧
        (∀ n ∈ exPinfo.nodes, ∀ r, exTd n = some r →
          ∀ e, r.closed_date = some e → e ≤ d)))) :=
  ⟨by decide, pathinfo_date_envelope exGraphABC exTd exPinfo (by decide)⟩

/-! ## Ranking -/

lemma sortLe_trans : ∀ a b c : PathInfo, sortLe a b → sortLe b c → sortLe a c := by
  intro a b c hab hbc
  simp only [sortLe, decide_eq_true_eq] at *
  omega

lemma sortLe_total : ∀ a b : PathInfo, sortLe a b || sortLe b a := by
  intro a b
  simp only [sortLe, Bool.or_eq_true, decide_eq_true_eq]
  exact Nat.le_total (sortKey b) (sortKey a)

/-- **C3.** `find_sorted_paths` returns at most `K` paths; they are the first
`K` entries of a permutation of the input sorted by `target_date` descending
(`sortKey` treats a missing target date as the lowest value), and the sort is
stable: any two entries with equal keys occur in the full sorted list in
their input order. -/
theorem sorted_paths_topk (path_infos : List PathInfo) (K : Nat) :
    (find_sorted_paths path_infos K).length ≤ K ∧
    (find_sorted_paths path_infos K).Pairwise (fun a b => sortKey b ≤ sortKey a) ∧
    ∃ l : List PathInfo,
      l.Perm path_infos ∧
      l.Pairwise (fun a b => sortKey b ≤ sortKey a) ∧
      (∀ a b, List.Sublist [a, b] path_infos → sortKey a = sortKey b → List.Sublist [a, b] l) ∧
      find_sorted_paths path_infos K = l.take K := by
  have hsorted : (path_infos.mergeSort sortLe).Pairwise
      (fun a b => sortKey b ≤ sortKey a) :=
    (List.sorted_mergeSort sortLe_trans sortLe_total path_infos).imp
      (fun h => by simpa [sortLe] using h)
  refine ⟨?_, ?_, path_infos.mergeSort sortLe, List.mergeSort_perm _ _,
    hsorted, ?_, rfl⟩
  · unfold find_sorted_paths
    rw [List.length_take]
    exact Nat.min_le_left _ _
  · exact hsorted.sublist (List.take_sublist _ _)
  · intro a b hsub hkey
    refine List.sublist_mergeSort sortLe_trans sortLe_total ?_ hsub
    refine List.pairwise_pair.mpr ?_
    show sortLe a b = true
    simp [sortLe, hkey]

/-- **C9.** A `PathInfo` whose `target_date` is `datetime.min` gets the same
sort key as one with no `target_date` at all, so `find_sorted_paths` ranks
the two as equal: wherever they occur in the input in some order, the full
sorted list keeps them in that order, exactly as it does for genuinely equal
dates — the ranking cannot distinguish an earliest-possible date from a
missing one. -/
theorem datetime_min_indistinguishable (path_infos : List PathInfo)
    (a b : PathInfo)
    (ha : a.target_date = some datetimeMin ∨ a.target_date = none)
    (hb : b.target_date = some datetimeMin ∨ b.target_date = none)
    (hsub : List.Sublist [a, b] path_infos) :
    sortKey a = sortKey b ∧
    List.Sublist [a, b] (find_sorted_paths path_infos path_infos.length) := by
  have hkey : sortKey a = sortKey b := by
    rcases ha with h | h <;> rcases hb with h' | h' <;>
      simp [sortKey, h, h', datetimeMin]
  refine ⟨hkey, ?_⟩
  unfold find_sorted_paths
  have hlen : (path_infos.mergeSort sortLe).length = path_infos.length :=
    (List.mergeSort_perm path_infos sortLe).length_eq
  rw [List.take_of_length_le (le_of_eq hlen)]
  refine List.sublist_mergeSort sortLe_trans sortLe_total ?_ hsub
  refine List.pairwise_pair.mpr ?_
  show sortLe a b = true
  simp [sortLe, hkey]

/-- Example inputs for the `datetime.min` ambiguity: an earliest-possible
target date followed by a missing one. -/
def exPinfoMin : PathInfo :=
  { nodes := ["P"], target_date := some datetimeMin, start_date := none,
    closed_date := none }

def exPinfoNone : PathInfo :=
  { nodes := ["Q"], target_date := none, start_date := none, closed_date := none }

theorem datetime_min_indistinguishable_witness :
    (exPinfoMin.target_date = some datetimeMin ∨ exPinfoMin.target_date = none) ∧
    (exPinfoNone.target_date = some datetimeMin ∨ exPinfoNone.target_date = none) ∧
    List.Sublist [exPinfoMin, exPinfoNone] [exPinfoMin, exPinfoNone] ∧
    (sortKey exPinfoMin = sortKey exPinfoNone ∧
      List.Sublist [exPinfoMin, exPinfoNone]
        (find_sorted_paths [exPinfoMin, exPinfoNone]
          ([exPinfoMin, exPinfoNone] : List PathInfo).length)) :=
  ⟨by decide, by decide, by decide,
    datetime_min_indistinguishable [exPinfoMin, exPinfoNone] exPinfoMin exPinfoNone
      (by decide) (by decide) (by decide)⟩

/-! ## Network metrics -/

/-- **C6 (amended).** For every graph, `analyze_network` assigns to each node
an in-degree (resp. out-degree) centrality of the node's degree divided by
`|V| - 1` when `|V| > 1`, and `1` — not `0` as the claim states — to every
node when `|V| ≤ 1` (the networkx convention for the degenerate case). -/
theorem degree_centrality_normalized (G : DiGraph) (n : String)
    (hn : n ∈ G.nodes) :
    (1 < G.nodes.length →
      (analyze_network G).in_degree_centrality n
          = some ((G.inDegree n : ℚ) / ((G.nodes.length : ℚ) - 1)) ∧
      (analyze_network G).out_degree_centrality n
          = some ((G.outDegree n : ℚ) / ((G.nodes.length : ℚ) - 1))) ∧
    (G.nodes.length ≤ 1 →
      (analyze_network G).in_degree_centrality n = some 1 ∧
      (analyze_network G).out_degree_centrality n = some 1) := by
  constructor
  · intro h
    have h' : ¬ G.nodes.length ≤ 1 := by omega
    constructor <;>
      simp [analyze_network, in_degree_centrality, out_degree_centrality, h', hn,
        mul_one_div, div_eq_mul_inv]
  · intro h
    constructor <;>
      simp [analyze_network, in_degree_centrality, out_degree_centrality, h, hn]

theorem degree_centrality_normalized_witness :
    "B" ∈ exGraphABC.nodes ∧
    ((1 < exGraphABC.nodes.length →
      (analyze_network exGraphABC).in_degree_centrality "B"
          = some ((exGraphABC.inDegree "B" : ℚ) / ((exGraphABC.nodes.length : ℚ) - 1)) ∧
      (analyze_network exGraphABC).out_degree_centrality "B"
          = some ((exGraphABC.outDegree "B" : ℚ) / ((exGraphABC.nodes.length : ℚ) - 1))) ∧
    (exGraphABC.nodes.length ≤ 1 →
      (analyze_network exGraphABC).in_degree_centrality "B" = some 1 ∧
      (analyze_network exGraphABC).out_degree_centrality "B" = some 1)) :=
  ⟨by decide, degree_centrality_normalized exGraphABC "B" (by decide)⟩

/-- A single-node graph. -/
def exGraphSingle : DiGraph := create_dag [("X", { type := "t", state := "s" })]

/-- On a single-node graph the centralities are `1`, not `0` as the
specification states: networkx's degenerate-case convention. -/
theorem degree_centrality_single_node_counterexample :
    (analyze_network exGraphSingle).in_degree_centrality "X" = some 1 ∧
    (analyze_network exGraphSingle).out_degree_centrality "X" = some 1 ∧
    ¬ ((analyze_network exGraphSingle).in_degree_centrality "X" = some 0) ∧
    ¬ ((analyze_network exGraphSingle).out_degree_centrality "X" = some 0) := by
  refine ⟨by decide, by decide, by decide, by decide⟩

/-! ## Implicitly created nodes -/

/-- `m` is a node the graph knows only structurally: present, but with an
empty attribute dictionary — or not present at all. -/
def UnknownAt (G : DiGraph) (m : String) : Prop :=
  (m ∈ G.nodes ∧ G.attrs m = some ⟨none, none⟩) ∨ (m ∉ G.nodes ∧ G.attrs m = none)

lemma unknownAt_touch {G : DiGraph} {m : String} (x : String)
    (h : UnknownAt G m) : UnknownAt (G.touch x) m := by
  unfold DiGraph.touch
  by_cases hx : x ∈ G.nodes
  · simpa [hx] using h
  · rcases h with ⟨hm, ha⟩ | ⟨hm, ha⟩
    · left
      have hmx : m ≠ x := fun he => hx (he ▸ hm)
      simp [hx, hmx, ha, List.mem_append, hm]
    · by_cases hmx : m = x
      · subst hmx
        left
        simp [hx]
      · right
        simp [hx, hmx, ha, List.mem_append, hm]

lemma unknownAt_addEdge {G : DiGraph} {m : String} (u v : String)
    (h : UnknownAt G m) : UnknownAt (G.addEdge u v) m := by
  unfold DiGraph.addEdge
  have h' := unknownAt_touch v (unknownAt_touch u h)
  dsimp only
  split_ifs with he
  · exact h'
  · rcases h' with ⟨hm, ha⟩ | ⟨hm, ha⟩
    · exact Or.inl ⟨hm, ha⟩
    · exact Or.inr ⟨hm, ha⟩

lemma unknownAt_addNode {G : DiGraph} {m : String} {k : String} (t s : String)
    (hk : k ≠ m) (h : UnknownAt G m) : UnknownAt (G.addNode k t s) m := by
  unfold DiGraph.addNode
  have hmk : m ≠ k := fun he => hk he.symm
  rcases h with ⟨hm, ha⟩ | ⟨hm, ha⟩
  · left
    constructor
    · by_cases hkm : k ∈ G.nodes <;> simp [hkm, hm, List.mem_append]
    · simp [hmk, ha]
  · right
    constructor
    · by_cases hkm : k ∈ G.nodes <;> simp [hkm, hm, hmk, List.mem_append]
    · simp [hmk, ha]

lemma unknownAt_foldl_addEdge_left {m : String} (k : String)
    (l : List String) : ∀ {G : DiGraph}, UnknownAt G m →
    UnknownAt (l.foldl (fun G p => G.addEdge p k) G) m := by
  induction l with
  | nil => intro G h; exact h
  | cons x rest ih => intro G h; exact ih (unknownAt_addEdge x k h)

lemma unknownAt_foldl_addEdge_right {m : String} (k : String)
    (l : List String) : ∀ {G : DiGraph}, UnknownAt G m →
    UnknownAt (l.foldl (fun G s => G.addEdge k s) G) m := by
  induction l with
  | nil => intro G h; exact h
  | cons x rest ih => intro G h; exact ih (unknownAt_addEdge k x h)

lemma unknownAt_dagStep {G : DiGraph} {m : String} (e : String × NodeInput)
    (he : e.1 ≠ m) (h : UnknownAt G m) : UnknownAt (dagStep G e) m := by
  unfold dagStep
  exact unknownAt_foldl_addEdge_right e.1 e.2.successors
    (unknownAt_foldl_addEdge_left e.1 e.2.predecessors
      (unknownAt_addNode e.2.type e.2.state he h))

lemma touch_mono {G : DiGraph} {n : String} (x : String)
    (h : n ∈ G.nodes) : n ∈ (G.touch x).nodes := by
  unfold DiGraph.touch
  by_cases hx : x ∈ G.nodes <;> simp [hx, List.mem_append, h]

lemma touch_mem_self (G : DiGraph) (x : String) : x ∈ (G.touch x).nodes := by
  unfold DiGraph.touch
  by_cases hx : x ∈ G.nodes <;> simp [hx, List.mem_append]

lemma addEdge_nodes (G : DiGraph) (u v : String) :
    (G.addEdge u v).nodes = ((G.touch u).touch v).nodes := by
  unfold DiGraph.addEdge
  dsimp only
  split_ifs <;> rfl

lemma addEdge_mono {G : DiGraph} {n : String} (u v : String)
    (h : n ∈ G.nodes) : n ∈ (G.addEdge u v).nodes := by
  rw [addEdge_nodes]
  exact touch_mono v (touch_mono u h)

lemma addEdge_mem_fst (G : DiGraph) (u v : String) : u ∈ (G.addEdge u v).nodes := by
  rw [addEdge_nodes]
  exact touch_mono v (touch_mem_self G u)

lemma addEdge_mem_snd (G : DiGraph) (u v : String) : v ∈ (G.addEdge u v).nodes := by
  rw [addEdge_nodes]
  exact touch_mem_self _ v

lemma addNode_mono {G : DiGraph} {n : String} (k t s : String)
    (h : n ∈ G.nodes) : n ∈ (G.addNode k t s).nodes := by
  unfold DiGraph.addNode
  by_cases hk : k ∈ G.nodes <;> simp [hk, List.mem_append, h]

lemma foldl_addEdge_left_mono {n : String} (k : String) (l : List String) :
    ∀ {G : DiGraph}, n ∈ G.nodes →
      n ∈ (l.foldl (fun G p => G.addEdge p k) G).nodes := by
  induction l with
  | nil => intro G h; exact h
  | cons x rest ih => intro G h; exact ih (addEdge_mono x k h)

lemma foldl_addEdge_right_mono {n : String} (k : String) (l : List String) :
    ∀ {G : DiGraph}, n ∈ G.nodes →
      n ∈ (l.foldl (fun G s => G.addEdge k s) G).nodes := by
  induction l with
  | nil => intro G h; exact h
  | cons x rest ih => intro G h; exact ih (addEdge_mono k x h)

lemma foldl_addEdge_left_mem {m : String} (k : String) (l : List String) :
    ∀ {G : DiGraph}, m ∈ l →
      m ∈ (l.foldl (fun G p => G.addEdge p k) G).nodes := by
  induction l with
  | nil => intro G h; simp at h
  | cons x rest ih =>
    intro G h
    rcases List.mem_cons.mp h with rfl | h
    · exact foldl_addEdge_left_mono k rest (addEdge_mem_fst G m k)
    · exact ih h

lemma foldl_addEdge_right_mem {m : String} (k : String) (l : List String) :
    ∀ {G : DiGraph}, m ∈ l →
      m ∈ (l.foldl (fun G s => G.addEdge k s) G).nodes := by
  induction l with
  | nil => intro G h; simp at h
  | cons x rest ih =>
    intro G h
    rcases List.mem_cons.mp h with rfl | h
    · exact foldl_addEdge_right_mono k rest (addEdge_mem_snd G k m)
    · exact ih h

lemma dagStep_mono {G : DiGraph} {n : String} (e : String × NodeInput)
    (h : n ∈ G.nodes) : n ∈ (dagStep G e).nodes := by
  unfold dagStep
  exact foldl_addEdge_right_mono e.1 e.2.successors
    (foldl_addEdge_left_mono e.1 e.2.predecessors
      (addNode_mono e.1 e.2.type e.2.state h))

lemma dagStep_mem_of_ref {G : DiGraph} {m : String} (e : String × NodeInput)
    (h : m ∈ e.2.predecessors ∨ m ∈ e.2.successors) :
    m ∈ (dagStep G e).nodes := by
  unfold dagStep
  rcases h with h | h
  · exact foldl_addEdge_right_mono e.1 e.2.successors
      (foldl_addEdge_left_mem e.1 e.2.predecessors h)
  · exact foldl_addEdge_right_mem e.1 e.2.successors h

lemma foldl_dagStep_mono {n : String} (data : List (String × NodeInput)) :
    ∀ {G : DiGraph}, n ∈ G.nodes → n ∈ (data.foldl dagStep G).nodes := by
  induction data with
  | nil => intro G h; exact h
  | cons e rest ih => intro G h; exact ih (dagStep_mono e h)

lemma tally_aux (l : List String) (t : String) :
    ∀ init : String → Nat,
      (l.foldl (fun m x => fun y => if y = x then m y + 1 else m y) init) t
        = init t + (l.filter (fun x => x = t)).length := by
  induction l with
  | nil => intro init; simp
  | cons x rest ih =>
    intro init
    rw [List.foldl_cons, ih]
    by_cases htx : t = x
    · subst htx; simp [List.filter_cons]; omega
    · have hxt : ¬ (x = t) := fun he => htx he.symm
      simp [htx, hxt, List.filter_cons]

lemma tally_spec (l : List String) (t : String) :
    tally l t = (l.filter (fun x => x = t)).length := by
  unfold tally
  rw [tally_aux]
  simp

lemma tally_map_spec (G : DiGraph) (f : DiGraph → String → String) (t : String) :
    tally (G.nodes.map (f G)) t
      = (G.nodes.filter (fun n => f G n = t)).length := by
  rw [tally_spec]
  induction G.nodes with
  | nil => rfl
  | cons x rest ih =>
    rw [List.map_cons, List.filter_cons, List.filter_cons]
    by_cases hx : f G x = t <;> simp [hx, ih]

/-- **C10.** A node identifier that appears only inside `predecessors` /
`successors` lists (never as a primary key of the input mapping) is present
in the graph built by `create_dag` but carries no `type` and no `state`
attribute, and `analyze_network` counts it under `"Unknown"` in both the
`node_types` and `node_states` tallies. -/
theorem implicit_nodes_unknown (data : List (String × NodeInput)) (m : String)
    (hnotkey : ∀ e ∈ data, e.1 ≠ m)
    (href : ∃ e ∈ data, m ∈ e.2.predecessors ∨ m ∈ e.2.successors) :
    m ∈ (create_dag data).nodes ∧
    (create_dag data).attrs m = some { type := none, state := none } ∧
    typeOf (create_dag data) m = "Unknown" ∧
    stateOf (create_dag data) m = "Unknown" ∧
    (analyze_network (create_dag data)).node_types "Unknown"
      = ((create_dag data).nodes.filter
          (fun x => typeOf (create_dag data) x = "Unknown")).length ∧
    m ∈ (create_dag data).nodes.filter
          (fun x => typeOf (create_dag data) x = "Unknown") ∧
    (analyze_network (create_dag data)).node_states "Unknown"
      = ((create_dag data).nodes.filter
          (fun x => stateOf (create_dag data) x = "Unknown")).length ∧
    m ∈ (create_dag data).nodes.filter
          (fun x => stateOf (create_dag data) x = "Unknown") := by
  have hunknown : UnknownAt (create_dag data) m := by
    unfold create_dag
    have : ∀ (dl : List (String × NodeInput)) (G : DiGraph),
        (∀ e ∈ dl, e.1 ≠ m) → UnknownAt G m →
        UnknownAt (dl.foldl dagStep G) m := by
      intro dl
      induction dl with
      | nil => intro G _ h; exact h
      | cons e rest ih =>
        intro G hk h
        exact ih _ (fun x hx => hk x (List.mem_cons_of_mem _ hx))
          (unknownAt_dagStep e (hk e (List.mem_cons_self _ _)) h)
    exact this data DiGraph.empty hnotkey
      (Or.inr ⟨by simp [DiGraph.empty], rfl⟩)
  have hmem : m ∈ (create_dag data).nodes := by
    unfold create_dag
    obtain ⟨e, he, href'⟩ := href
    obtain ⟨l1, l2, rfl⟩ := List.append_of_mem he
    rw [List.foldl_append, List.foldl_cons]
    exact foldl_dagStep_mono l2 (dagStep_mem_of_ref e href')
  have hattrs : (create_dag data).attrs m = some ⟨none, none⟩ := by
    rcases hunknown with ⟨_, ha⟩ | ⟨hnm, _⟩
    · exact ha
    · exact absurd hmem hnm
  have htype : typeOf (create_dag data) m = "Unknown" := by
    unfold typeOf
    rw [hattrs]
    rfl
  have hstate : stateOf (create_dag data) m = "Unknown" := by
    unfold stateOf
    rw [hattrs]
    rfl
  refine ⟨hmem, hattrs, htype, hstate, ?_, ?_, ?_, ?_⟩
  · exact tally_map_spec (create_dag data) typeOf "Unknown"
  · exact List.mem_filter.mpr ⟨hmem, by simp [htype]⟩
  · exact tally_map_spec (create_dag data) stateOf "Unknown"
  · exact List.mem_filter.mpr ⟨hmem, by simp [hstate]⟩

/-- A data set where `M` is referenced as a predecessor of `A` but never
appears as a primary key. -/
def exDataImplicit : List (String × NodeInput) :=
  [("A", { type := "t", state := "s", predecessors := ["M"] })]

theorem implicit_nodes_unknown_witness :
    (∀ e ∈ exDataImplicit, e.1 ≠ "M") ∧
    (∃ e ∈ exDataImplicit, "M" ∈ e.2.predecessors ∨ "M" ∈ e.2.successors) ∧
    ("M" ∈ (create_dag exDataImplicit).nodes ∧
      (create_dag exDataImplicit).attrs "M" = some { type := none, state := none } ∧
      typeOf (create_dag exDataImplicit) "M" = "Unknown" ∧
      stateOf (create_dag exDataImplicit) "M" = "Unknown" ∧
      (analyze_network (create_dag exDataImplicit)).node_types "Unknown"
        = ((create_dag exDataImplicit).nodes.filter
            (fun x => typeOf (create_dag exDataImplicit) x = "Unknown")).length ∧
      "M" ∈ (create_dag exDataImplicit).nodes.filter
            (fun x => typeOf (create_dag exDataImplicit) x = "Unknown") ∧
      (analyze_network (create_dag exDataImplicit)).node_states "Unknown"
        = ((create_dag exDataImplicit).nodes.filter
            (fun x => stateOf (create_dag exDataImplicit) x = "Unknown")).length ∧
      "M" ∈ (create_dag exDataImplicit).nodes.filter
            (fun x => stateOf (create_dag exDataImplicit) x = "Unknown")) :=
  ⟨by decide, by decide,
    implicit_nodes_unknown exDataImplicit "M" (by decide) (by decide)⟩

/-! ## Soundness and completeness of the path enumeration -/

lemma pathsAux_sound (G : DiGraph) :
    ∀ (fuel : Nat) (u t : String) (visited : List String) (p : List String),
      u ∉ visited → p ∈ pathsAux G fuel u t visited →
      p.head? = some u ∧ p.getLast? = some t ∧ p.Nodup ∧
        List.Chain' G.hasEdge p ∧ ∀ x ∈ p, x ∉ visited := by
  intro fuel
  induction fuel with
  | zero =>
    intro u t visited p _ hp
    simp [pathsAux] at hp
  | succ fuel ih =>
    intro u t visited p hu hp
    rw [pathsAux] at hp
    by_cases hut : u = t
    · subst hut
      rw [if_pos rfl] at hp
      simp only [List.mem_singleton] at hp
      subst hp
      exact ⟨rfl, rfl, List.nodup_singleton u, List.chain'_singleton u,
        by simpa using hu⟩
    · rw [if_neg hut] at hp
      simp only [List.mem_flatMap] at hp
      obtain ⟨v, hv, hp⟩ := hp
      by_cases hvv : v ∈ u :: visited
      · rw [if_pos hvv] at hp
        simp at hp
      · rw [if_neg hvv] at hp
        obtain ⟨q, hq, rfl⟩ := List.mem_map.mp hp
        obtain ⟨hhead, hlast, hnodup, hchain, hdisj⟩ :=
          ih v t (u :: visited) q hvv hq
        have hqne : q ≠ [] := by
          intro h0; rw [h0] at hhead; simp at hhead
        have hunotq : u ∉ q := fun hu' =>
          hdisj u hu' (List.mem_cons_self _ _)
        refine ⟨rfl, ?_, List.nodup_cons.mpr ⟨hunotq, hnodup⟩, ?_, ?_⟩
        · cases q with
          | nil => exact absurd rfl hqne
          | cons b q2 => rw [List.getLast?_cons_cons]; exact hlast
        · refine List.chain'_cons'.mpr ⟨?_, hchain⟩
          intro y hy
          rw [hhead] at hy
          cases hy
          exact DiGraph.mem_succList.mp hv
        · intro x hx
          rcases List.mem_cons.mp hx with rfl | hx
          · exact hu
          · exact fun hvis => hdisj x hx (List.mem_cons_of_mem _ hvis)

lemma pathsAux_complete (G : DiGraph) :
    ∀ (fuel : Nat) (u t : String) (visited : List String) (p : List String),
      p.head? = some u → p.getLast? = some t → p.Nodup →
      List.Chain' G.hasEdge p → (∀ x ∈ p, x ∉ visited) → p.length ≤ fuel →
      p ∈ pathsAux G fuel u t visited := by
  intro fuel
  induction fuel with
  | zero =>
    intro u t visited p hh _ _ _ _ hlen
    rw [List.length_eq_zero.mp (Nat.le_zero.mp hlen)] at hh
    simp at hh
  | succ fuel ih =>
    intro u t visited p hh hl hnd hch hdis hlen
    obtain ⟨rest, rfl⟩ : ∃ rest, p = u :: rest := by
      cases p with
      | nil => simp at hh
      | cons a rest =>
        simp only [List.head?_cons, Option.some.injEq] at hh
        exact ⟨rest, by rw [hh]⟩
    rw [pathsAux]
    by_cases hut : u = t
    · subst hut
      rw [if_pos rfl]
      cases rest with
      | nil => simp
      | cons b rest2 =>
        exfalso
        have hmem : u ∈ b :: rest2 := by
          apply List.mem_of_getLast?_eq_some
          rw [← List.getLast?_cons_cons (a := u)]
          exact hl
        exact (List.nodup_cons.mp hnd).1 hmem
    · rw [if_neg hut]
      cases rest with
      | nil =>
        exfalso
        simp only [List.getLast?_singleton, Option.some.injEq] at hl
        exact hut hl
      | cons v rest2 =>
        simp only [List.mem_flatMap]
        have hedge : G.hasEdge u v := (List.chain'_cons.mp hch).1
        refine ⟨v, DiGraph.mem_succList.mpr hedge, ?_⟩
        have hvnot : v ∉ u :: visited := by
          intro hv
          rcases List.mem_cons.mp hv with rfl | hv
          · exact (List.nodup_cons.mp hnd).1 (List.mem_cons_self _ _)
          · exact hdis v (by simp) hv
        rw [if_neg hvnot]
        refine List.mem_map.mpr ⟨v :: rest2, ?_, rfl⟩
        apply ih v t (u :: visited) (v :: rest2) rfl
        · rw [← List.getLast?_cons_cons (a := u)]; exact hl
        · exact (List.nodup_cons.mp hnd).2
        · exact (List.chain'_cons.mp hch).2
        · intro x hx
          intro hvis
          rcases List.mem_cons.mp hvis with rfl | hvis
          · exact (List.nodup_cons.mp hnd).1 hx
          · exact hdis x (List.mem_cons_of_mem _ hx) hvis
        · simpa using Nat.le_of_succ_le_succ hlen

/-- Every directed walk contains a simple path with the same endpoints. -/
lemma exists_simple_path (G : DiGraph) {s t : String}
    (h : Relation.ReflTransGen G.hasEdge s t) :
    ∃ p : List String, p.head? = some s ∧ p.getLast? = some t ∧
      p.Nodup ∧ List.Chain' G.hasEdge p := by
  induction h using Relation.ReflTransGen.head_induction_on with
  | refl =>
    exact ⟨[t], rfl, rfl, List.nodup_singleton t, List.chain'_singleton t⟩
  | head hstep _ ih =>
    rename_i a b _
    obtain ⟨p, hh, hl, hnd, hch⟩ := ih
    by_cases ha : a ∈ p
    · obtain ⟨l1, l2, rfl⟩ := List.append_of_mem ha
      refine ⟨a :: l2, rfl, ?_, ?_, ?_⟩
      · rw [List.getLast?_append] at hl
        rcases h2 : (a :: l2).getLast? with _ | x
        · simp at h2
        · rw [h2] at hl; simpa using hl
      · exact List.Nodup.sublist (List.sublist_append_right l1 _) hnd
      · exact hch.suffix ⟨l1, rfl⟩
    · have hpne : p ≠ [] := by intro h0; rw [h0] at hh; simp at hh
      refine ⟨a :: p, rfl, ?_, List.nodup_cons.mpr ⟨ha, hnd⟩, ?_⟩
      · cases p with
        | nil => exact absurd rfl hpne
        | cons c p2 => rw [List.getLast?_cons_cons]; exact hl
      · refine List.chain'_cons'.mpr ⟨?_, hch⟩
        intro y hy
        rw [hh] at hy
        cases hy
        exact hstep

/-- On a chain of length at least two of a well-formed graph every node is a
stored node. -/
lemma chain'_subset_nodes {G : DiGraph} (hwf : G.WellFormed) :
    ∀ {p : List String}, List.Chain' G.hasEdge p → 2 ≤ p.length →
      ∀ x ∈ p, x ∈ G.nodes := by
  intro p
  induction p with
  | nil => simp
  | cons a rest ih =>
    intro hch hlen x hx
    cases rest with
    | nil => simp at hlen
    | cons b rest2 =>
      have hedge : G.hasEdge a b := (List.chain'_cons.mp hch).1
      have hab := hwf (a, b) hedge
      rcases List.mem_cons.mp hx with rfl | hx
      · exact hab.1
      · cases rest2 with
        | nil =>
          rw [List.mem_singleton] at hx
          subst hx
          exact hab.2
        | cons c rest3 =>
          exact ih (List.chain'_cons.mp hch).2 (by simp) x hx

lemma nodup_length_le {p l : List String} (hnd : p.Nodup)
    (hsub : ∀ x ∈ p, x ∈ l) : p.length ≤ l.length := by
  classical
  have h2 : p.toFinset ⊆ l.toFinset := by
    intro x hx
    rw [List.mem_toFinset] at *
    exact hsub x hx
  calc p.length = p.toFinset.card := (List.toFinset_card_of_nodup hnd).symm
    _ ≤ l.toFinset.card := Finset.card_le_card h2
    _ ≤ l.length := List.toFinset_card_le l

lemma allSimplePaths_sound {G : DiGraph} {s t : String} {p : List String}
    (hp : p ∈ allSimplePaths G s t) :
    p.head? = some s ∧ p.getLast? = some t ∧ p.Nodup ∧
      List.Chain' G.hasEdge p := by
  obtain ⟨h1, h2, h3, h4, _⟩ :=
    pathsAux_sound G G.nodes.length s t [] p (by simp) hp
  exact ⟨h1, h2, h3, h4⟩

lemma allSimplePaths_complete {G : DiGraph} {s t : String} {p : List String}
    (hwf : G.WellFormed) (hst : s ≠ t) (hh : p.head? = some s)
    (hl : p.getLast? = some t) (hnd : p.Nodup)
    (hch : List.Chain' G.hasEdge p) : p ∈ allSimplePaths G s t := by
  have h2 : 2 ≤ p.length := by
    cases p with
    | nil => simp at hh
    | cons a rest =>
      cases rest with
      | nil =>
        exfalso
        simp only [List.head?_cons, Option.some.injEq] at hh
        simp only [List.getLast?_singleton, Option.some.injEq] at hl
        exact hst (hh ▸ hl)
      | cons b rest2 => simp
  apply pathsAux_complete G G.nodes.length s t [] p hh hl hnd hch (by simp)
  exact nodup_length_le hnd (chain'_subset_nodes hwf hch h2)

lemma mem_allPathsList_of {G : DiGraph} {s t : String} {p : List String}
    (hs : s ∈ G.nodes) (ht : t ∈ G.nodes) (hst : s ≠ t)
    (hp : p ∈ allSimplePaths G s t) : p ∈ allPathsList G := by
  unfold allPathsList
  rw [List.mem_flatMap]
  refine ⟨s, hs, ?_⟩
  rw [List.mem_flatMap]
  refine ⟨t, ht, ?_⟩
  rw [if_neg hst]
  exact hp

lemma mem_allPathsList {G : DiGraph} {p : List String}
    (hp : p ∈ allPathsList G) : ∃ s t, s ≠ t ∧ p ∈ allSimplePaths G s t := by
  unfold allPathsList at hp
  rw [List.mem_flatMap] at hp
  obtain ⟨s, _, hp⟩ := hp
  rw [List.mem_flatMap] at hp
  obtain ⟨t, _, hp⟩ := hp
  by_cases hst : s = t
  · rw [if_pos hst] at hp; simp at hp
  · rw [if_neg hst] at hp; exact ⟨s, t, hst, hp⟩

/-- **C2.** Every path returned by `find_paths_with_dates` is a simple path
of the graph (pairwise-distinct nodes, consecutive nodes joined by directed
edges), and for every ordered pair `(s, t)` of distinct nodes joined by at
least one directed walk the output contains a path from `s` to `t`;
unconnected pairs contribute nothing and raise no error. -/
theorem simple_paths_enumeration (G : DiGraph) (td : TMap)
    (hwf : G.WellFormed) :
    (∀ pinfo ∈ (find_paths_with_dates G td).1,
      pinfo.nodes.Nodup ∧ List.Chain' G.hasEdge pinfo.nodes) ∧
    (∀ s t : String, s ≠ t → Relation.ReflTransGen G.hasEdge s t →
      ∃ pinfo ∈ (find_paths_with_dates G td).1,
        pinfo.nodes.head? = some s ∧ pinfo.nodes.getLast? = some t) := by
  constructor
  · intro pinfo hmem
    rw [find_paths_fst] at hmem
    obtain ⟨p, hp, rfl⟩ := List.mem_map.mp hmem
    obtain ⟨s, t, _, hsp⟩ := mem_allPathsList hp
    obtain ⟨_, _, hnd, hch⟩ := allSimplePaths_sound hsp
    exact ⟨hnd, hch⟩
  · intro s t hst hreach
    have hs : s ∈ G.nodes := by
      rcases Relation.ReflTransGen.cases_head hreach with h | ⟨u, hedge, _⟩
      · exact absurd h hst
      · exact (hwf (s, u) hedge).1
    have ht : t ∈ G.nodes := by
      rcases Relation.ReflTransGen.cases_tail hreach with h | ⟨c, _, hedge⟩
      · exact absurd h.symm hst
      · exact (hwf (c, t) hedge).2
    obtain ⟨p, hh, hl, hnd, hch⟩ := exists_simple_path G hreach
    have hp := allSimplePaths_complete hwf hst hh hl hnd hch
    refine ⟨mkPathInfo td p, ?_, hh, hl⟩
    rw [find_paths_fst]
    exact List.mem_map_of_mem _ (mem_allPathsList_of hs ht hst hp)

theorem simple_paths_enumeration_witness :
    exGraphABC.WellFormed ∧
    ((∀ pinfo ∈ (find_paths_with_dates exGraphABC exTd).1,
      pinfo.nodes.Nodup ∧ List.Chain' exGraphABC.hasEdge pinfo.nodes) ∧
    (∀ s t : String, s ≠ t → Relation.ReflTransGen exGraphABC.hasEdge s t →
      ∃ pinfo ∈ (find_paths_with_dates exGraphABC exTd).1,
        pinfo.nodes.head? = some s ∧ pinfo.nodes.getLast? = some t)) :=
  ⟨by decide, simple_paths_enumeration exGraphABC exTd (by decide)⟩

end DagPaths
